import Mathlib

/-!
Verification development for the tree-surgery primitives of
`DraftTreeOperations.js` (draft-js experimental tree data).

The block map (`Immutable.OrderedMap<string, ContentBlockNode>`) is embedded
as an insertion-ordered association list `List (Key × ContentBlockNode)`.
The five operations are translated directly from the source:
`updateParentChild`, `updateSibling`, `replaceParentChild`, `createNewParent`
and `updateAsSiblingsChild`.

Conventions of the embedding:
- `generateRandomKey` is modelled by passing the fresh key as an explicit
  parameter (the key generator is external to the file; the spec only requires
  that the produced key be unique in the document's key space).
- `ContentBlockNode` construction defaults are modelled from the spec:
  a newly synthesized parent has empty text, the wrapped node's depth and
  type, an empty children list, and no parent or sibling references.
- `verifyTree` only runs when `__DEV__` is set; in production builds it is a
  no-op, so it is omitted here (the operations' observable results are the
  production ones).
- JavaScript failures are modelled by `Except JSError`: `invariant`
  violations become `JSError.precondition msg`, and crashes from calling a
  method on `undefined` (for example `blockMap.get(k).merge(...)` with `k`
  absent) become `JSError.typeError`.
- an `Immutable.OrderedMap.set`/`merge` on an existing key replaces the value
  in place (iteration order kept); on a fresh key it appends.  A JavaScript
  object literal staging several writes to the same key keeps only the last
  write; folding `omSet` over the writes in program order models both facts.
-/

abbrev Key := String

structure ContentBlockNode where
  key : Key
  text : String
  type : String
  depth : Nat
  parent : Option Key := none
  prevSibling : Option Key := none
  nextSibling : Option Key := none
  children : List Key := []
deriving Repr, DecidableEq

abbrev BlockMap := List (Key × ContentBlockNode)

inductive JSError where
  | precondition (msg : String)
  | typeError
deriving Repr, DecidableEq

instance {ε α : Type} [DecidableEq ε] [DecidableEq α] : DecidableEq (Except ε α) := fun x y =>
  match x, y with
  | Except.ok a, Except.ok b => decidable_of_iff (a = b) (by simp)
  | Except.ok _, Except.error _ => isFalse (by simp)
  | Except.error _, Except.ok _ => isFalse (by simp)
  | Except.error e, Except.error f => decidable_of_iff (e = f) (by simp)

/-- Lookup in an ordered map: the value at the first (in a well-formed map,
the only) entry whose key matches; `Immutable.Map.get` returns `undefined`
for a missing key, modelled by `none`. -/
def omGet : BlockMap → Key → Option ContentBlockNode
  | [], _ => none
  | p :: m, k => if p.1 = k then some p.2 else omGet m k

/-- Write one key of an ordered map: an existing key keeps its position and
gets the new value, a fresh key is appended at the end
(`Immutable.OrderedMap.set` semantics, also the per-key behaviour of
`merge` and `concat`). -/
def omSet : BlockMap → Key → ContentBlockNode → BlockMap
  | [], k, v => [(k, v)]
  | p :: m, k, v => if p.1 = k then (k, v) :: m else p :: omSet m k v

/-- Apply a sequence of staged writes in program order.  This models both
`blockMap.merge(newBlocks)` (where `newBlocks` is a JS object built by
successive assignments) and `OrderedMap.concat`. -/
def applyAssigns (m : BlockMap) (assigns : List (Key × ContentBlockNode)) : BlockMap :=
  assigns.foldl (fun acc p => omSet acc p.1 p.2) m

/-- The source's `blockMap.takeUntil(b => b.getKey() === key)`:
`Immutable.takeUntil(pred)` takes entries while the predicate is false, so
this collects the entries strictly before the first block whose `key` field
is `k`. -/
def takeUntilKey : BlockMap → Key → BlockMap
  | [], _ => []
  | p :: m, k => if p.2.key = k then [] else p :: takeUntilKey m k

/-- The source's `blockMap.skipUntil(b => b.getKey() === key)`: drops entries
while the predicate is false, keeping the suffix starting at the first block
whose `key` field is `k`. -/
def skipUntilKey : BlockMap → Key → BlockMap
  | [], _ => []
  | p :: m, k => if p.2.key = k then p :: m else skipUntilKey m k

/-- JavaScript / Immutable `indexOf`: index of the first occurrence, `-1`
when absent. -/
def jsIndexOf (l : List Key) (k : Key) : Int :=
  match l.findIdx? (fun x => x = k) with
  | some i => (i : Int)
  | none => -1

/-- `Immutable.List.set` with an `Int` index: a negative index counts back
from the end (`set(-1, v)` replaces the last element).  Behaviour outside
`[-length, length)` is never exercised by these operations and is modelled
as the identity. -/
def listSet (l : List Key) (i : Int) (v : Key) : List Key :=
  let j := if i < 0 then i + l.length else i
  if 0 ≤ j ∧ j < (l.length : Int) then l.set j.toNat v else l

/-- `Immutable.List.delete` with an `Int` index: a negative index counts back
from the end.  Behaviour outside `[-length, length)` is never exercised by
these operations and is modelled as the identity. -/
def listDelete (l : List Key) (i : Int) : List Key :=
  let j := if i < 0 then i + l.length else i
  if 0 ≤ j ∧ j < (l.length : Int) then l.eraseIdx j.toNat else l

/-- Translation of `updateParentChild(blockMap, parentKey, childKey,
position)`: inserts `childKey` into the parent's children at `position`,
links the adjacent existing children to the child, and overwrites the
child's `parent`/`prevSibling`/`nextSibling` fields.  The staged writes are
built in the source's assignment order: parent, previous neighbour, next
neighbour, child. -/
def updateParentChild (m : BlockMap) (parentKey childKey : Key) (position : Int) :
    Except JSError BlockMap :=
  match omGet m parentKey, omGet m childKey with
  | some parent, some child =>
    let cs := parent.children
    if position < 0 ∨ (cs.length : Int) < position then
      Except.error (JSError.precondition "position is not valid for the number of children")
    else
      let p := position.toNat
      let prevStep : Except JSError (Option Key × List (Key × ContentBlockNode)) :=
        if 0 < p then
          match cs[p-1]? with
          | some pk =>
            match omGet m pk with
            | some pn => Except.ok (some pk, [(pk, { pn with nextSibling := some childKey })])
            | none => Except.error JSError.typeError
          | none => Except.ok (none, [])
        else Except.ok (none, [])
      match prevStep with
      | Except.error e => Except.error e
      | Except.ok (prevKeyOpt, prevAssigns) =>
        let nextStep : Except JSError (Option Key × List (Key × ContentBlockNode)) :=
          if p < cs.length then
            match cs[p]? with
            | some nk =>
              match omGet m nk with
              | some nn => Except.ok (some nk, [(nk, { nn with prevSibling := some childKey })])
              | none => Except.error JSError.typeError
            | none => Except.ok (none, [])
          else Except.ok (none, [])
        match nextStep with
        | Except.error e => Except.error e
        | Except.ok (nextKeyOpt, nextAssigns) =>
          Except.ok (applyAssigns m
            ((parentKey, { parent with children := cs.take p ++ childKey :: cs.drop p })
              :: (prevAssigns ++ nextAssigns ++
                [(childKey,
                  { child with
                    parent := some parentKey,
                    prevSibling := prevKeyOpt,
                    nextSibling := nextKeyOpt })])))
  | _, _ => Except.error (JSError.precondition "parent & child should exist in the block map")

/-- Translation of `updateSibling(blockMap, prevKey, nextKey)`: stages
`prevKey.nextSibling := nextKey` then `nextKey.prevSibling := prevKey`
(in a single JS object, so with `prevKey = nextKey` the second write
overwrites the first). -/
def updateSibling (m : BlockMap) (prevKey nextKey : Key) : Except JSError BlockMap :=
  match omGet m prevKey, omGet m nextKey with
  | some pn, some nn =>
    Except.ok (applyAssigns m
      [(prevKey, { pn with nextSibling := some nextKey }),
       (nextKey, { nn with prevSibling := some prevKey })])
  | _, _ => Except.error (JSError.precondition "siblings should exist in the block map")

/-- Translation of `replaceParentChild(blockMap, parentKey, existingChildKey,
newChildKey)`: overwrites the slot of `existingChildKey` in the parent's
children (via `indexOf`, which yields `-1` when absent) with `newChildKey`,
and points the new child's `parent` at the parent. -/
def replaceParentChild (m : BlockMap) (parentKey existingChildKey newChildKey : Key) :
    Except JSError BlockMap :=
  match omGet m parentKey, omGet m newChildKey with
  | some parent, some newChild =>
    let cs := parent.children
    Except.ok (applyAssigns m
      [(parentKey,
        { parent with children := listSet cs (jsIndexOf cs existingChildKey) newChildKey }),
       (newChildKey, { newChild with parent := some parentKey })])
  | _, _ => Except.error (JSError.precondition "parent & child should exist in the block map")

/-- Translation of `createNewParent(blockMap, key)`.  `newKey` stands for the
result of `generateRandomKey()` (modelled from the spec: the generator
returns a key unique in the document's key space, passed here as a
parameter).  The new parent node's defaulted fields are modelled from the
spec: empty text, the wrapped block's depth and type, empty children, no
parent or sibling references. -/
def createNewParent (m : BlockMap) (key newKey : Key) : Except JSError BlockMap :=
  match omGet m key with
  | none => Except.error (JSError.precondition "block must exist in block map")
  | some block =>
    let newParent : ContentBlockNode :=
      { key := newKey, text := "", type := block.type, depth := block.depth,
        parent := none, prevSibling := none, nextSibling := none, children := [] }
    let m1 := applyAssigns (applyAssigns (takeUntilKey m key) [(newKey, newParent)])
      (skipUntilKey m key)
    match updateParentChild m1 newKey key 0 with
    | Except.error e => Except.error e
    | Except.ok m2 =>
      let step3 : Except JSError BlockMap :=
        match block.prevSibling with
        | some ps => updateSibling m2 ps newKey
        | none => Except.ok m2
      match step3 with
      | Except.error e => Except.error e
      | Except.ok m3 =>
        let step4 : Except JSError BlockMap :=
          match block.nextSibling with
          | some ns => updateSibling m3 newKey ns
          | none => Except.ok m3
        match step4 with
        | Except.error e => Except.error e
        | Except.ok m4 =>
          match block.parent with
          | some par => replaceParentChild m4 par key newKey
          | none => Except.ok m4

inductive SiblingInsertPosition where
  | previous
  | next
deriving Repr, DecidableEq

/-- Translation of `updateAsSiblingsChild(blockMap, key, position)`.
The source's second invariant reads
`invariant(newParent !== null && newParent.getText() === '', ...)`;
`Immutable.Map.get` returns `undefined` (not `null`) for a missing key, so
the strict `!== null` comparison passes and `undefined.getText()` crashes
with a TypeError before the invariant can fire — modelled by the
`JSError.typeError` branch on a missing sibling node. -/
def updateAsSiblingsChild (m : BlockMap) (key : Key) (position : SiblingInsertPosition) :
    Except JSError BlockMap :=
  match omGet m key with
  | none => Except.error (JSError.precondition "block must exist in block map")
  | some block =>
    let newParentKeyOpt : Option Key :=
      match position with
      | SiblingInsertPosition.previous => block.prevSibling
      | SiblingInsertPosition.next => block.nextSibling
    match newParentKeyOpt with
    | none => Except.error (JSError.precondition "sibling is null")
    | some newParentKey =>
      match omGet m newParentKey with
      | none => Except.error JSError.typeError
      | some newParent =>
        if newParent.text ≠ "" then
          Except.error (JSError.precondition "parent must be a valid node")
        else
          let mainStep : Except JSError BlockMap :=
            match position with
            | SiblingInsertPosition.next =>
              match updateParentChild m newParentKey key 0 with
              | Except.error e => Except.error e
              | Except.ok nbm1 =>
                let sibStep : Except JSError BlockMap :=
                  match block.prevSibling with
                  | some ps => updateSibling nbm1 ps newParentKey
                  | none =>
                    match omGet nbm1 newParentKey with
                    | some np =>
                      Except.ok (omSet nbm1 newParentKey { np with prevSibling := none })
                    | none => Except.error JSError.typeError
                match sibStep with
                | Except.error e => Except.error e
                | Except.ok nbm2 =>
                  match omGet nbm2 newParentKey, omGet nbm2 key with
                  | some vS, some vK =>
                    Except.ok (applyAssigns
                      (applyAssigns (takeUntilKey nbm2 key) [(newParentKey, vS), (key, vK)])
                      ((skipUntilKey nbm2 newParentKey).drop 1))
                  | _, _ => Except.error JSError.typeError
            | SiblingInsertPosition.previous =>
              match updateParentChild m newParentKey key (newParent.children.length : Int) with
              | Except.error e => Except.error e
              | Except.ok nbm1 =>
                match block.nextSibling with
                | some ns => updateSibling nbm1 newParentKey ns
                | none =>
                  match omGet nbm1 newParentKey with
                  | some np =>
                    Except.ok (omSet nbm1 newParentKey { np with nextSibling := none })
                  | none => Except.error JSError.typeError
          match mainStep with
          | Except.error e => Except.error e
          | Except.ok nbm =>
            match block.parent with
            | none => Except.ok nbm
            | some parentKey =>
              match omGet nbm parentKey with
              | none => Except.error JSError.typeError
              | some parent =>
                Except.ok (omSet nbm parentKey
                  { parent with children :=
                      listDelete parent.children (jsIndexOf parent.children key) })

/-! ### Auxiliary predicates -/

/-- Property holding of the value of an optional reference when it is set
(vacuously true when the reference is `none`). -/
def optAll (o : Option α) (P : α → Prop) : Prop :=
  match o with
  | none => True
  | some a => P a

/-- Property requiring an optional value to be present and satisfy `P`. -/
def optSome (o : Option α) (P : α → Prop) : Prop :=
  match o with
  | none => False
  | some a => P a

instance (o : Option α) (P : α → Prop) [∀ a, Decidable (P a)] : Decidable (optAll o P) :=
  match o with
  | none => isTrue trivial
  | some a => if h : P a then isTrue h else isFalse h

instance (o : Option α) (P : α → Prop) [∀ a, Decidable (P a)] : Decidable (optSome o P) :=
  match o with
  | none => isFalse (fun h => h)
  | some a => if h : P a then isTrue h else isFalse h

/-- Sibling symmetry over a block map: every stored `nextSibling` reference
points at a present node whose `prevSibling` points back, and symmetrically
for `prevSibling` (the spec's sibling half of the symmetry invariant). -/
def siblingSymmetric (m : BlockMap) : Prop :=
  ∀ p ∈ m,
    optAll p.2.nextSibling
      (fun b => optSome (omGet m b) (fun nb => nb.prevSibling = some p.1)) ∧
    optAll p.2.prevSibling
      (fun b => optSome (omGet m b) (fun nb => nb.nextSibling = some p.1))

/-- Parent-child symmetry over a block map: every child key listed by a node
refers to a present node whose `parent` field points back (the spec's
parent-child half of the symmetry invariant). -/
def parentChildSymmetric (m : BlockMap) : Prop :=
  ∀ p ∈ m, ∀ c ∈ p.2.children,
    optSome (omGet m c) (fun nc => nc.parent = some p.1)

instance (m : BlockMap) : Decidable (siblingSymmetric m) := by
  unfold siblingSymmetric
  infer_instance

instance (m : BlockMap) : Decidable (parentChildSymmetric m) := by
  unfold parentChildSymmetric
  infer_instance

/-! ### Concrete block maps used when instantiating the claims -/

/-- Three top-level blocks: `a` and `c` are mutually linked siblings and `b`
is unrelated. -/
def mSib : BlockMap :=
  [("a", { key := "a", text := "", type := "t", depth := 0, nextSibling := some "c" }),
   ("c", { key := "c", text := "", type := "t", depth := 0, prevSibling := some "a" }),
   ("b", { key := "b", text := "", type := "t", depth := 0 })]

/-- The result of `updateSibling mSib "a" "b"`. -/
def rSib : BlockMap :=
  [("a", { key := "a", text := "", type := "t", depth := 0, nextSibling := some "b" }),
   ("c", { key := "c", text := "", type := "t", depth := 0, prevSibling := some "a" }),
   ("b", { key := "b", text := "", type := "t", depth := 0, prevSibling := some "a" })]

/-- A valid tree in which block `k` has a child `c` and an empty-text next
sibling `s`; iteration order `[k, c, s]` (a parent's subtree precedes its
next sibling). -/
def mAdopt : BlockMap :=
  [("k", { key := "k", text := "", type := "t", depth := 0,
           nextSibling := some "s", children := ["c"] }),
   ("c", { key := "c", text := "leaf", type := "t", depth := 1, parent := some "k" }),
   ("s", { key := "s", text := "", type := "t", depth := 0, prevSibling := some "k" })]

/-- The result of `updateAsSiblingsChild mAdopt "k" next`: the subtree entry
`c` has been dropped from the collection while `k` still lists it. -/
def rAdopt : BlockMap :=
  [("s", { key := "s", text := "", type := "t", depth := 0, children := ["k"] }),
   ("k", { key := "k", text := "", type := "t", depth := 0,
           parent := some "s", children := ["c"] })]

/-- The concrete scenario of the spec for `createNewParent`: two top-level
sibling blocks `A` and `B` with no children. -/
def mWrap : BlockMap :=
  [("A", { key := "A", text := "x", type := "t", depth := 2, nextSibling := some "B" }),
   ("B", { key := "B", text := "y", type := "u", depth := 5, prevSibling := some "A" })]

/-- A single block whose recorded next sibling `z` is absent from the
collection (a dangling sibling reference). -/
def mMissingSib : BlockMap :=
  [("k", { key := "k", text := "", type := "t", depth := 0, nextSibling := some "z" })]

/-- Two mutually linked sibling blocks `k` and `q`. -/
def mPair : BlockMap :=
  [("k", { key := "k", text := "", type := "t", depth := 0, nextSibling := some "q" }),
   ("q", { key := "q", text := "", type := "t", depth := 0, prevSibling := some "k" })]

/-- A single childless block `p`. -/
def mSolo : BlockMap := [("p", { key := "p", text := "", type := "t", depth := 0 })]

/-- The spec's concrete scenario for `updateParentChild`: parent `p` with
children `[x, y, z]`, plus a detached block `w` to insert. -/
def mXYZ : BlockMap :=
  [("p", { key := "p", text := "", type := "t", depth := 0, children := ["x", "y", "z"] }),
   ("x", { key := "x", text := "", type := "t", depth := 1, parent := some "p",
           nextSibling := some "y" }),
   ("y", { key := "y", text := "", type := "t", depth := 1, parent := some "p",
           prevSibling := some "x", nextSibling := some "z" }),
   ("z", { key := "z", text := "", type := "t", depth := 1, parent := some "p",
           prevSibling := some "y" }),
   ("w", { key := "w", text := "", type := "t", depth := 1 })]

/-- Parent `p` with single child `x`. -/
def mPX : BlockMap :=
  [("p", { key := "p", text := "", type := "t", depth := 0, children := ["x"] }),
   ("x", { key := "x", text := "", type := "t", depth := 1, parent := some "p" })]

/-- A valid tree: container `f` with children `[p, k, s]`, where `s` (empty
text) is the next sibling of `k`. -/
def mAdoptW : BlockMap :=
  [("f", { key := "f", text := "", type := "t", depth := 0, children := ["p", "k", "s"] }),
   ("p", { key := "p", text := "", type := "t", depth := 1, parent := some "f",
           nextSibling := some "k" }),
   ("k", { key := "k", text := "kk", type := "t", depth := 1, parent := some "f",
           prevSibling := some "p", nextSibling := some "s" }),
   ("s", { key := "s", text := "", type := "t", depth := 1, parent := some "f",
           prevSibling := some "k" })]

/-! ### Lemma toolkit for the ordered-map embedding -/

theorem omGet_append (B C : BlockMap) (k : Key) :
    omGet (B ++ C) k = match omGet B k with
      | some v => some v
      | none => omGet C k := by
  induction B with
  | nil => simp [omGet]
  | cons p B ih =>
    by_cases h : p.1 = k <;> simp [omGet, h, ih]

theorem omGet_eq_none_iff (m : BlockMap) (k : Key) :
    omGet m k = none ↔ k ∉ m.map Prod.fst := by
  induction m with
  | nil => simp [omGet]
  | cons p m ih =>
    by_cases h : p.1 = k
    · simp [omGet, h]
    · have h' : ¬k = p.1 := fun hk => h hk.symm
      simp [omGet, h, ih, h']

theorem omGet_append_of_not_mem (B C : BlockMap) (k : Key)
    (h : k ∉ B.map Prod.fst) : omGet (B ++ C) k = omGet C k := by
  rw [omGet_append, (omGet_eq_none_iff B k).mpr h]

theorem omGet_mem_nodup {m : BlockMap} {k : Key} {v : ContentBlockNode}
    (h : (k, v) ∈ m) (hd : (m.map Prod.fst).Nodup) : omGet m k = some v := by
  induction m with
  | nil => simp at h
  | cons p m ih =>
    rw [List.map_cons, List.nodup_cons] at hd
    rcases List.mem_cons.mp h with h1 | h1
    · subst h1
      simp [omGet]
    · have hk : p.1 ≠ k := by
        intro he
        apply hd.1
        rw [he]
        exact List.mem_map.mpr ⟨(k, v), h1, rfl⟩
      simp only [omGet, hk, if_false]
      exact ih h1 hd.2

theorem exists_omGet_of_mem_keys {m : BlockMap} {k : Key}
    (h : k ∈ m.map Prod.fst) : ∃ v, omGet m k = some v := by
  rcases Option.eq_none_or_eq_some (omGet m k) with h0 | h0
  · exact absurd ((omGet_eq_none_iff m k).mp h0) (by simpa using h)
  · exact h0

theorem omSet_fresh {m : BlockMap} {k : Key} (v : ContentBlockNode)
    (h : k ∉ m.map Prod.fst) : omSet m k v = m ++ [(k, v)] := by
  induction m with
  | nil => rfl
  | cons p m ih =>
    simp only [List.map_cons, List.mem_cons] at h
    push_neg at h
    simp [omSet, Ne.symm h.1, ih h.2]

theorem omSet_append_left {B : BlockMap} (C : BlockMap) {k : Key} (v : ContentBlockNode)
    (h : k ∈ B.map Prod.fst) : omSet (B ++ C) k v = omSet B k v ++ C := by
  induction B with
  | nil => simp at h
  | cons p B ih =>
    by_cases hp : p.1 = k
    · simp [omSet, hp]
    · simp only [List.map_cons, List.mem_cons] at h
      rcases h with h | h
      · exact absurd h.symm hp
      · simp [omSet, hp, ih h]

theorem omSet_append_right (B : BlockMap) {C : BlockMap} {k : Key} (v : ContentBlockNode)
    (h : k ∉ B.map Prod.fst) : omSet (B ++ C) k v = B ++ omSet C k v := by
  induction B with
  | nil => simp
  | cons p B ih =>
    simp only [List.map_cons, List.mem_cons] at h
    push_neg at h
    simp [omSet, Ne.symm h.1, ih h.2]

theorem keys_omSet {m : BlockMap} {k : Key} (v : ContentBlockNode)
    (h : k ∈ m.map Prod.fst) : (omSet m k v).map Prod.fst = m.map Prod.fst := by
  induction m with
  | nil => simp at h
  | cons p m ih =>
    by_cases hp : p.1 = k
    · simp [omSet, hp]
    · simp only [List.map_cons, List.mem_cons] at h
      rcases h with h | h
      · exact absurd h.symm hp
      · simp [omSet, hp, ih h]

theorem omGet_omSet_self (m : BlockMap) (k : Key) (v : ContentBlockNode) :
    omGet (omSet m k v) k = some v := by
  induction m with
  | nil => simp [omSet, omGet]
  | cons p m ih =>
    by_cases hp : p.1 = k <;> simp [omSet, omGet, hp, ih]

theorem omGet_omSet_ne (m : BlockMap) {j k : Key} (v : ContentBlockNode)
    (h : j ≠ k) : omGet (omSet m k v) j = omGet m j := by
  induction m with
  | nil => simp [omSet, omGet, Ne.symm h]
  | cons p m ih =>
    by_cases hp : p.1 = k
    · simp [omSet, omGet, hp, Ne.symm h]
    · by_cases hj : p.1 = j <;> simp [omSet, omGet, hp, hj, h, ih]

theorem applyAssigns_nil (m : BlockMap) : applyAssigns m [] = m := rfl

theorem applyAssigns_cons (m : BlockMap) (p : Key × ContentBlockNode)
    (l : List (Key × ContentBlockNode)) :
    applyAssigns m (p :: l) = applyAssigns (omSet m p.1 p.2) l := rfl

theorem applyAssigns_append (m : BlockMap) (l1 l2 : List (Key × ContentBlockNode)) :
    applyAssigns m (l1 ++ l2) = applyAssigns (applyAssigns m l1) l2 :=
  List.foldl_append _ _ _ _

theorem applyAssigns_fresh {m : BlockMap} {l : List (Key × ContentBlockNode)}
    (h1 : ∀ p ∈ l, p.1 ∉ m.map Prod.fst) (h2 : (l.map Prod.fst).Nodup) :
    applyAssigns m l = m ++ l := by
  induction l generalizing m with
  | nil => simp [applyAssigns]
  | cons p l ih =>
    rw [List.map_cons, List.nodup_cons] at h2
    rw [applyAssigns_cons, omSet_fresh p.2 (h1 p (List.mem_cons_self p l))]
    rw [ih ?_ h2.2]
    · simp
    · intro q hq
      rw [List.map_append]
      intro hmem
      rcases List.mem_append.mp hmem with hA | hB
      · exact h1 q (List.mem_cons_of_mem p hq) hA
      · apply h2.1
        simp only [List.map_cons, List.map_nil, List.mem_singleton] at hB
        rw [← hB]
        exact List.mem_map.mpr ⟨q, hq, rfl⟩

theorem takeUntilKey_eq (B R : BlockMap) (q : Key × ContentBlockNode) (k : Key)
    (hB : ∀ p ∈ B, p.2.key ≠ k) (hq : q.2.key = k) :
    takeUntilKey (B ++ q :: R) k = B := by
  induction B with
  | nil => simp [takeUntilKey, hq]
  | cons p B ih =>
    have hp : p.2.key ≠ k := hB p (List.mem_cons_self p B)
    rw [List.cons_append]
    show (if p.2.key = k then [] else p :: takeUntilKey (B ++ q :: R) k) = p :: B
    rw [if_neg hp, ih (fun r hr => hB r (List.mem_cons_of_mem p hr))]

theorem skipUntilKey_eq (B R : BlockMap) (q : Key × ContentBlockNode) (k : Key)
    (hB : ∀ p ∈ B, p.2.key ≠ k) (hq : q.2.key = k) :
    skipUntilKey (B ++ q :: R) k = q :: R := by
  induction B with
  | nil => simp [skipUntilKey, hq]
  | cons p B ih =>
    have hp : p.2.key ≠ k := hB p (List.mem_cons_self p B)
    rw [List.cons_append]
    show (if p.2.key = k then (p :: (B ++ q :: R)) else skipUntilKey (B ++ q :: R) k) = q :: R
    rw [if_neg hp, ih (fun r hr => hB r (List.mem_cons_of_mem p hr))]

theorem jsIndexOf_of_not_mem {l : List Key} {k : Key} (h : k ∉ l) :
    jsIndexOf l k = -1 := by
  unfold jsIndexOf
  have hnone : l.findIdx? (fun x => x = k) = none := by
    rw [List.findIdx?_eq_none_iff]
    intro x hx
    simp only [decide_eq_false_iff_not]
    intro he
    exact h (he ▸ hx)
  rw [hnone]

theorem jsIndexOf_of_mem {l : List Key} {k : Key} (h : k ∈ l) :
    jsIndexOf l k = (l.findIdx (fun x => x = k) : Int) ∧
      l.findIdx (fun x => x = k) < l.length := by
  have hex : ∃ x ∈ l, decide (x = k) = true := ⟨k, h, by simp⟩
  refine ⟨?_, List.findIdx_lt_length.mpr hex⟩
  unfold jsIndexOf
  rw [List.findIdx?_eq_some_of_exists hex]

theorem set_last_eq_dropLast_append {l : List Key} (v : Key) (h : l ≠ []) :
    l.set (l.length - 1) v = l.dropLast ++ [v] := by
  induction l with
  | nil => exact absurd rfl h
  | cons a l ih =>
    cases l with
    | nil => simp
    | cons b l =>
      have hcb := ih (by simp)
      simp only [List.length_cons, Nat.add_sub_cancel] at *
      simp only [List.set_cons_succ, List.dropLast_cons₂, List.cons_append]
      rw [← hcb]

theorem eraseIdx_findIdx_eq_erase {l : List Key} {k : Key} (h : k ∈ l) :
    l.eraseIdx (l.findIdx (fun x => x = k)) = l.erase k := by
  induction l with
  | nil => simp at h
  | cons a l ih =>
    by_cases ha : a = k
    · simp [List.findIdx_cons, ha, List.erase_cons]
    · have h' : k ∈ l := by
        rcases List.mem_cons.mp h with h1 | h1
        · exact absurd h1.symm ha
        · exact h1
      simp [List.findIdx_cons, List.erase_cons, ha, ih h']

theorem listDelete_jsIndexOf_eq_erase {l : List Key} {k : Key} (h : k ∈ l) :
    listDelete l (jsIndexOf l k) = l.erase k := by
  rcases jsIndexOf_of_mem h with ⟨h1, h2⟩
  rw [h1]
  unfold listDelete
  have h0 : ¬((l.findIdx (fun x => x = k) : Int) < 0) := by omega
  simp only [h0, if_false]
  have hin : (0 : Int) ≤ (l.findIdx (fun x => x = k) : Int) ∧
      (l.findIdx (fun x => x = k) : Int) < (l.length : Int) := by omega
  rw [if_pos hin]
  simp only [Int.toNat_ofNat]
  exact eraseIdx_findIdx_eq_erase h

theorem listSet_jsIndexOf_of_mem {l : List Key} {k : Key} (v : Key) (h : k ∈ l) :
    listSet l (jsIndexOf l k) v = l.set (l.findIdx (fun x => x = k)) v := by
  rcases jsIndexOf_of_mem h with ⟨h1, h2⟩
  rw [h1]
  unfold listSet
  have h0 : ¬((l.findIdx (fun x => x = k) : Int) < 0) := by omega
  simp only [h0, if_false]
  have hin : (0 : Int) ≤ (l.findIdx (fun x => x = k) : Int) ∧
      (l.findIdx (fun x => x = k) : Int) < (l.length : Int) := by omega
  rw [if_pos hin]
  simp

theorem listSet_neg_one {l : List Key} (v : Key) (h : l ≠ []) :
    listSet l (-1) v = l.dropLast ++ [v] := by
  unfold listSet
  have hl : 0 < l.length := List.length_pos.mpr h
  have hneg : (-1 : Int) < 0 := by norm_num
  simp only [hneg, if_true]
  have hin : (0 : Int) ≤ -1 + (l.length : Int) ∧ -1 + (l.length : Int) < (l.length : Int) := by
    omega
  rw [if_pos hin]
  have htn : ((-1 : Int) + (l.length : Int)).toNat = l.length - 1 := by omega
  rw [htn]
  exact set_last_eq_dropLast_append v h

/-! ### Claim C10 -/

/-- C10: `updateSibling(collection, k, k)` stages its two node updates under
the same key, so the second overwrites the first: the returned node for `k`
has `prevSibling = k` while every other field — in particular
`nextSibling` — keeps its prior value, and the promised bidirectional link
is not established. -/
theorem c10_selfSibling_overwrite (m : BlockMap) (k : Key) (n : ContentBlockNode)
    (h : omGet m k = some n) :
    ∃ r, updateSibling m k k = Except.ok r ∧
      omGet r k = some { n with prevSibling := some k } := by
  refine ⟨omSet (omSet m k { n with nextSibling := some k }) k { n with prevSibling := some k },
    ?_, omGet_omSet_self _ _ _⟩
  unfold updateSibling
  rw [h]
  rfl

/-- Witness for C10 at the concrete two-block map `mPair`: the returned `k`
node has `prevSibling = k` and `nextSibling` still `q` (not `k`), so the
bidirectional self-link was not established. -/
theorem c10_selfSibling_overwrite_witness :
    omGet mPair "k" =
      some { key := "k", text := "", type := "t", depth := 0, nextSibling := some "q" } ∧
    (∃ r, updateSibling mPair "k" "k" = Except.ok r ∧
      omGet r "k" =
        some { key := "k", text := "", type := "t", depth := 0,
               prevSibling := some "k", nextSibling := some "q" }) :=
  ⟨by decide,
   c10_selfSibling_overwrite mPair "k"
     { key := "k", text := "", type := "t", depth := 0, nextSibling := some "q" }
     (by decide)⟩

/-! ### Claim C1 -/

/-- C1, counterexample: inputs to `updateSibling` only need both keys present
(its stated preconditions); on the fully symmetric input `mSib` (where `a`
and `c` are mutually linked siblings), `updateSibling mSib a b` returns a
collection in which `c.prevSibling = a` but `a.nextSibling = b`, so the
bidirectional symmetry invariant fails on an operation's output. -/
theorem c1_global_symmetry_fails :
    updateSibling mSib "a" "b" = Except.ok rSib ∧
    siblingSymmetric mSib ∧ parentChildSymmetric mSib ∧
    ¬ siblingSymmetric rSib := by decide

/-- C1, amended: each `updateSibling` call makes the one link it writes
bidirectional between the two nodes involved (for distinct keys): in the
returned collection `a.nextSibling = b` and `b.prevSibling = a`.  Global
symmetry over all nodes is not guaranteed for the primitive operations —
stale references of former neighbours are left untouched, as the source's
doc comments state. -/
theorem c1_writtenLink_symmetric (m : BlockMap) (a b : Key) (na nb : ContentBlockNode)
    (hab : a ≠ b) (ha : omGet m a = some na) (hb : omGet m b = some nb) :
    ∃ r, updateSibling m a b = Except.ok r ∧
      optSome (omGet r a) (fun x => x.nextSibling = some b) ∧
      optSome (omGet r b) (fun x => x.prevSibling = some a) := by
  refine ⟨omSet (omSet m a { na with nextSibling := some b }) b { nb with prevSibling := some a },
    ?_, ?_, ?_⟩
  · unfold updateSibling
    rw [ha, hb]
    rfl
  · rw [omGet_omSet_ne _ _ hab, omGet_omSet_self]
    exact rfl
  · rw [omGet_omSet_self]
    exact rfl

/-- Witness for the amended C1 at the two-block map `mPair`. -/
theorem c1_writtenLink_symmetric_witness :
    ("k" : Key) ≠ "q" ∧
    (∃ r, updateSibling mPair "k" "q" = Except.ok r ∧
      optSome (omGet r "k") (fun x => x.nextSibling = some "q") ∧
      optSome (omGet r "q") (fun x => x.prevSibling = some "k")) :=
  ⟨by decide,
   c1_writtenLink_symmetric mPair "k" "q"
     { key := "k", text := "", type := "t", depth := 0, nextSibling := some "q" }
     { key := "q", text := "", type := "t", depth := 0, prevSibling := some "k" }
     (by decide) (by decide) (by decide)⟩

/-! ### Claim C2 -/

/-- C2, failing input: `mAdopt` is a fully symmetric tree in which `k` has a
child `c` and an empty-text next sibling `s`.  `updateAsSiblingsChild`
(case `next`) drops `c` from the returned collection entirely — the key is
present in the input and absent in the output — and the result even has a
dangling child reference (`k` still lists `c`), so the operation's own exit
validity assertion would fail in development mode. -/
theorem c2_adoptBySibling_drops_descendant :
    updateAsSiblingsChild mAdopt "k" SiblingInsertPosition.next = Except.ok rAdopt ∧
    (omGet mAdopt "c").isSome = true ∧
    omGet rAdopt "c" = none ∧
    ¬ parentChildSymmetric rAdopt ∧
    siblingSymmetric mAdopt ∧ parentChildSymmetric mAdopt := by decide

/-! ### Claim C6 -/

/-- C6, failing input: when the recorded sibling key is absent from the
collection, `Immutable.get` yields `undefined`, which passes the source's
strict `!== null` test, and `undefined.getText()` crashes with a TypeError —
not the `PreconditionError` the claim requires. -/
theorem c6_missing_sibling_typeError :
    updateAsSiblingsChild mMissingSib "k" SiblingInsertPosition.next =
      Except.error JSError.typeError ∧
    ∀ msg, (Except.error JSError.typeError : Except JSError BlockMap) ≠
      Except.error (JSError.precondition msg) :=
  ⟨by decide, fun _ h => JSError.noConfusion (Except.error.inj h)⟩


/-! ### Claim C5 -/

/-- C5, counterexample: the claim's preconditions allow `parentKey =
childKey`.  With the single-node map `mSolo`, `updateParentChild(mSolo, p,
p, 0)` resolves both keys and position `0` is in bounds, yet the returned
collection does not have `p` inserted in the children list: the staged
child write (built from the unmodified child node) overwrites the staged
parent write under the same key, so `children` stays `[]`. -/
theorem c5_alias_insert_lost :
    updateParentChild mSolo "p" "p" 0 =
      Except.ok [("p", { key := "p", text := "", type := "t", depth := 0,
                         parent := some "p" })] ∧
    optSome
      (omGet [("p", { key := "p", text := "", type := "t", depth := 0,
                      parent := some "p" })] "p")
      (fun n => n.children ≠ ["p"]) := by decide

/-- C5, amended: for every collection in which `parentKey` and `childKey`
resolve, `0 ≤ position ≤ count(parent.children)`, `childKey ≠ parentKey`,
and the parent's children adjacent to the insertion point are present in
the collection and distinct from `parentKey`, `childKey` and each other,
`updateParentChild` inserts `childKey` into the parent's children at
`position`; when `position > 0` the child previously at `position - 1` gets
`nextSibling = childKey`; when `position < oldCount` the child previously
at `position` gets `prevSibling = childKey`; and the child node's `parent`,
`prevSibling` and `nextSibling` are all set unconditionally, overwriting
any prior values. -/
theorem c5_updateParentChild_spec (m : BlockMap) (parentKey childKey : Key) (position : Int)
    (parent child : ContentBlockNode)
    (hp : omGet m parentKey = some parent) (hc : omGet m childKey = some child)
    (h0 : 0 ≤ position) (h1 : position ≤ (parent.children.length : Int))
    (hpc : childKey ≠ parentKey)
    (hprev : 0 < position.toNat →
      optAll parent.children[position.toNat - 1]?
        (fun pk => (omGet m pk).isSome = true ∧ pk ≠ parentKey ∧ pk ≠ childKey))
    (hnext : position.toNat < parent.children.length →
      optAll parent.children[position.toNat]?
        (fun nk => (omGet m nk).isSome = true ∧ nk ≠ parentKey ∧ nk ≠ childKey))
    (hpn : 0 < position.toNat → position.toNat < parent.children.length →
      parent.children[position.toNat - 1]? ≠ parent.children[position.toNat]?) :
    ∃ r, updateParentChild m parentKey childKey position = Except.ok r ∧
      omGet r parentKey =
        some { parent with
               children := parent.children.take position.toNat ++
                 childKey :: parent.children.drop position.toNat } ∧
      omGet r childKey =
        some { child with
               parent := some parentKey,
               prevSibling := if 0 < position.toNat
                 then parent.children[position.toNat - 1]? else none,
               nextSibling := if position.toNat < parent.children.length
                 then parent.children[position.toNat]? else none } ∧
      (0 < position.toNat → optAll parent.children[position.toNat - 1]? (fun pk =>
        ∀ pn, omGet m pk = some pn →
          omGet r pk = some { pn with nextSibling := some childKey })) ∧
      (position.toNat < parent.children.length →
        optAll parent.children[position.toNat]? (fun nk =>
          ∀ nn, omGet m nk = some nn →
            omGet r nk = some { nn with prevSibling := some childKey })) := by
  have hbound : ¬(position < 0 ∨ (parent.children.length : Int) < position) := by omega
  have hcp : parentKey ≠ childKey := Ne.symm hpc
  rcases Nat.eq_zero_or_pos position.toNat with hp0 | hp0
  · rcases Nat.eq_zero_or_pos parent.children.length with hl0 | hl0
    · -- no previous and no next neighbour
      have hnp : ¬(position.toNat < parent.children.length) := by omega
      have hnp0 : ¬(0 < parent.children.length) := by omega
      have hr : updateParentChild m parentKey childKey position = Except.ok (applyAssigns m
          [(parentKey, { parent with children := childKey :: parent.children }),
           (childKey,
            { child with
              parent := some parentKey, prevSibling := none, nextSibling := none })]) := by
        rw [updateParentChild.eq_def, hp, hc]
        simp only [hbound, if_false, hp0, Nat.lt_irrefl, hnp0, if_true, List.take_zero,
          List.drop_zero, List.nil_append, List.singleton_append, List.append_nil]
      refine ⟨_, hr, ?_, ?_, ?_, ?_⟩
      · simp only [applyAssigns_cons, applyAssigns_nil]
        rw [omGet_omSet_ne _ _ hcp, omGet_omSet_self]
        simp [hp0]
      · simp only [applyAssigns_cons, applyAssigns_nil]
        rw [omGet_omSet_self]
        simp [hp0, hnp0]
      · intro h; omega
      · intro h; omega
    · -- next neighbour only
      obtain ⟨nk, hj⟩ : ∃ nk, parent.children[0]? = some nk :=
        ⟨parent.children[0], List.getElem?_eq_getElem hl0⟩
      have hnextP := hnext (by omega)
      rw [hp0, hj] at hnextP
      simp only [optAll] at hnextP
      obtain ⟨hnks, hnkp, hnkc⟩ := hnextP
      obtain ⟨nn, hnn⟩ := Option.isSome_iff_exists.mp hnks
      have hr : updateParentChild m parentKey childKey position = Except.ok (applyAssigns m
          [(parentKey, { parent with children := childKey :: parent.children }),
           (nk, { nn with prevSibling := some childKey }),
           (childKey,
            { child with
              parent := some parentKey, prevSibling := none, nextSibling := some nk })]) := by
        rw [updateParentChild.eq_def, hp, hc]
        simp only [hbound, if_false, hp0, Nat.lt_irrefl, hl0, if_true, hj, hnn,
          List.take_zero, List.drop_zero, List.nil_append, List.singleton_append,
          List.append_nil, List.cons_append]
      refine ⟨_, hr, ?_, ?_, ?_, ?_⟩
      · simp only [applyAssigns_cons, applyAssigns_nil]
        rw [omGet_omSet_ne _ _ hcp, omGet_omSet_ne _ _ (Ne.symm hnkp), omGet_omSet_self]
        simp [hp0]
      · simp only [applyAssigns_cons, applyAssigns_nil]
        rw [omGet_omSet_self]
        simp [hp0, hl0, hj]
      · intro h; omega
      · intro h
        rw [hp0, hj]
        simp only [optAll]
        intro nn' hnn'
        have hee : nn = nn' := Option.some.inj (hnn.symm.trans hnn')
        subst hee
        simp only [applyAssigns_cons, applyAssigns_nil]
        rw [omGet_omSet_ne _ _ hnkc, omGet_omSet_self]
  · have hjp : parent.children[position.toNat - 1]? =
        some parent.children[position.toNat - 1] :=
      List.getElem?_eq_getElem (by omega)
    have hprevP := hprev hp0
    rw [hjp] at hprevP
    simp only [optAll] at hprevP
    obtain ⟨hpks, hpkp, hpkc⟩ := hprevP
    obtain ⟨pn, hpnv⟩ := Option.isSome_iff_exists.mp hpks
    rcases Nat.lt_or_ge position.toNat parent.children.length with hlt | hge
    · -- both neighbours
      have hjn : parent.children[position.toNat]? = some parent.children[position.toNat] :=
        List.getElem?_eq_getElem hlt
      have hnextP := hnext hlt
      rw [hjn] at hnextP
      simp only [optAll] at hnextP
      obtain ⟨hnks, hnkp, hnkc⟩ := hnextP
      obtain ⟨nn, hnn⟩ := Option.isSome_iff_exists.mp hnks
      have hpknk : parent.children[position.toNat - 1] ≠ parent.children[position.toNat] := by
        intro he
        exact (hpn hp0 hlt) (by rw [hjp, hjn, he])
      have hr : updateParentChild m parentKey childKey position = Except.ok (applyAssigns m
          [(parentKey,
            { parent with
              children := parent.children.take position.toNat ++
                childKey :: parent.children.drop position.toNat }),
           (parent.children[position.toNat - 1], { pn with nextSibling := some childKey }),
           (parent.children[position.toNat], { nn with prevSibling := some childKey }),
           (childKey,
            { child with
              parent := some parentKey,
              prevSibling := some parent.children[position.toNat - 1],
              nextSibling := some parent.children[position.toNat] })]) := by
        rw [updateParentChild.eq_def, hp, hc]
        simp only [hbound, if_false, hp0, if_true, hlt, hjp, hjn, hpnv, hnn,
          List.nil_append, List.singleton_append, List.append_nil, List.cons_append]
      refine ⟨_, hr, ?_, ?_, ?_, ?_⟩
      · simp only [applyAssigns_cons, applyAssigns_nil]
        rw [omGet_omSet_ne _ _ hcp, omGet_omSet_ne _ _ (Ne.symm hnkp),
          omGet_omSet_ne _ _ (Ne.symm hpkp), omGet_omSet_self]
      · simp only [applyAssigns_cons, applyAssigns_nil]
        rw [omGet_omSet_self]
        simp [hp0, hlt, hjp, hjn]
      · intro h
        rw [hjp]
        simp only [optAll]
        intro pn' hpn''
        have hee : pn = pn' := Option.some.inj (hpnv.symm.trans hpn'')
        subst hee
        simp only [applyAssigns_cons, applyAssigns_nil]
        rw [omGet_omSet_ne _ _ hpkc, omGet_omSet_ne _ _ hpknk, omGet_omSet_self]
      · intro h
        rw [hjn]
        simp only [optAll]
        intro nn' hnn'
        have hee : nn = nn' := Option.some.inj (hnn.symm.trans hnn')
        subst hee
        simp only [applyAssigns_cons, applyAssigns_nil]
        rw [omGet_omSet_ne _ _ hnkc, omGet_omSet_self]
    · -- previous neighbour only
      have hnp : ¬(position.toNat < parent.children.length) := by omega
      have hr : updateParentChild m parentKey childKey position = Except.ok (applyAssigns m
          [(parentKey,
            { parent with
              children := parent.children.take position.toNat ++
                childKey :: parent.children.drop position.toNat }),
           (parent.children[position.toNat - 1], { pn with nextSibling := some childKey }),
           (childKey,
            { child with
              parent := some parentKey,
              prevSibling := some parent.children[position.toNat - 1],
              nextSibling := none })]) := by
        rw [updateParentChild.eq_def, hp, hc]
        simp only [hbound, if_false, hp0, if_true, hnp, hjp, hpnv,
          List.nil_append, List.singleton_append, List.append_nil, List.cons_append]
      refine ⟨_, hr, ?_, ?_, ?_, ?_⟩
      · simp only [applyAssigns_cons, applyAssigns_nil]
        rw [omGet_omSet_ne _ _ hcp, omGet_omSet_ne _ _ (Ne.symm hpkp), omGet_omSet_self]
      · simp only [applyAssigns_cons, applyAssigns_nil]
        rw [omGet_omSet_self]
        simp [hp0, hnp, hjp]
      · intro h
        rw [hjp]
        simp only [optAll]
        intro pn' hpn''
        have hee : pn = pn' := Option.some.inj (hpnv.symm.trans hpn'')
        subst hee
        simp only [applyAssigns_cons, applyAssigns_nil]
        rw [omGet_omSet_ne _ _ hpkc, omGet_omSet_self]
      · intro h; omega


/-- Witness for the amended C5 at the spec's concrete scenario: children
`[x, y, z]` under `p`; inserting `w` at position 1 yields children
`[x, w, y, z]` with all sibling and parent links as claimed. -/
theorem c5_updateParentChild_spec_witness :
    ∃ r, updateParentChild mXYZ "p" "w" 1 = Except.ok r ∧
      omGet r "p" = some { key := "p", text := "", type := "t", depth := 0,
                           children := ["x", "w", "y", "z"] } ∧
      omGet r "w" = some { key := "w", text := "", type := "t", depth := 1,
                           parent := some "p", prevSibling := some "x",
                           nextSibling := some "y" } ∧
      (∀ pn, omGet mXYZ "x" = some pn →
        omGet r "x" = some { pn with nextSibling := some "w" }) ∧
      (∀ nn, omGet mXYZ "y" = some nn →
        omGet r "y" = some { nn with prevSibling := some "w" }) := by
  obtain ⟨r, h1, h2, h3, h4, h5⟩ := c5_updateParentChild_spec mXYZ "p" "w" 1
    { key := "p", text := "", type := "t", depth := 0, children := ["x", "y", "z"] }
    { key := "w", text := "", type := "t", depth := 1 }
    (by decide) (by decide) (by decide) (by decide) (by decide) (by decide)
    (by decide) (by decide)
  exact ⟨r, h1, h2, h3, h4 (by decide), h5 (by decide)⟩

/-! ### Claim C8 -/

/-- C8, counterexample: the claim's preconditions allow `parentKey =
newChildKey`.  With `mPX` (`p` has children `[x]`), `replaceParentChild
(mPX, p, x, p)` resolves both keys and `x` occurs in the children, yet the
slot is not overwritten: the staged new-child write (built from the
unmodified node) overwrites the staged parent write under the same key, so
`p`'s children stay `[x]` instead of becoming `[p]`. -/
theorem c8_alias_slot_not_replaced :
    replaceParentChild mPX "p" "x" "p" =
      Except.ok [("p", { key := "p", text := "", type := "t", depth := 0,
                         parent := some "p", children := ["x"] }),
                 ("x", { key := "x", text := "", type := "t", depth := 1,
                         parent := some "p" })] ∧
    optSome
      (omGet [("p", { key := "p", text := "", type := "t", depth := 0,
                      parent := some "p", children := ["x"] }),
              ("x", { key := "x", text := "", type := "t", depth := 1,
                      parent := some "p" })] "p")
      (fun n => n.children ≠ ["p"]) := by decide

/-- C8, amended: for every collection in which `parentKey` and `newChildKey`
resolve, `oldChildKey` occurs in the parent's children, `parentKey ≠
newChildKey` and `oldChildKey ≠ newChildKey`, `replaceParentChild` changes
exactly two nodes: the parent's children slot at `oldChildKey`'s (first)
index is overwritten by `newChildKey`, and `newChildKey`'s node gets
`parent = parentKey`; every other node is value-equal to its input version,
and the old child's own `parent` and sibling links are unchanged. -/
theorem c8_replaceParentChild_spec (m : BlockMap) (parentKey oldChildKey newChildKey : Key)
    (parent newChild : ContentBlockNode)
    (hp : omGet m parentKey = some parent) (hn : omGet m newChildKey = some newChild)
    (hold : oldChildKey ∈ parent.children)
    (hd1 : parentKey ≠ newChildKey) (hd2 : oldChildKey ≠ newChildKey) :
    ∃ r, replaceParentChild m parentKey oldChildKey newChildKey = Except.ok r ∧
      omGet r parentKey =
        some { parent with
               children := parent.children.set
                 (parent.children.findIdx (fun x => x = oldChildKey)) newChildKey } ∧
      omGet r newChildKey = some { newChild with parent := some parentKey } ∧
      (∀ k, k ≠ parentKey → k ≠ newChildKey → omGet r k = omGet m k) ∧
      (∀ onode, omGet m oldChildKey = some onode →
        optSome (omGet r oldChildKey) (fun onode' =>
          onode'.parent = onode.parent ∧ onode'.prevSibling = onode.prevSibling ∧
          onode'.nextSibling = onode.nextSibling)) := by
  have hr : replaceParentChild m parentKey oldChildKey newChildKey = Except.ok (applyAssigns m
      [(parentKey,
        { parent with
          children := parent.children.set
            (parent.children.findIdx (fun x => x = oldChildKey)) newChildKey }),
       (newChildKey, { newChild with parent := some parentKey })]) := by
    rw [replaceParentChild.eq_def, hp, hn]
    simp only [listSet_jsIndexOf_of_mem _ hold]
  refine ⟨_, hr, ?_, ?_, ?_, ?_⟩
  · simp only [applyAssigns_cons, applyAssigns_nil]
    rw [omGet_omSet_ne _ _ hd1, omGet_omSet_self]
  · simp only [applyAssigns_cons, applyAssigns_nil]
    rw [omGet_omSet_self]
  · intro k hk1 hk2
    simp only [applyAssigns_cons, applyAssigns_nil]
    rw [omGet_omSet_ne _ _ hk2, omGet_omSet_ne _ _ hk1]
  · intro onode honode
    by_cases hop : oldChildKey = parentKey
    · subst hop
      have heq : onode = parent := Option.some.inj (honode.symm.trans hp)
      subst heq
      simp only [applyAssigns_cons, applyAssigns_nil]
      rw [omGet_omSet_ne _ _ hd1, omGet_omSet_self]
      exact ⟨rfl, rfl, rfl⟩
    · simp only [applyAssigns_cons, applyAssigns_nil]
      rw [omGet_omSet_ne _ _ hd2, omGet_omSet_ne _ _ hop, honode]
      exact ⟨rfl, rfl, rfl⟩


/-- Witness for the amended C8: replacing child `y` by the detached block
`w` under `p` in `mXYZ` overwrites exactly the slot of `y`. -/
theorem c8_replaceParentChild_spec_witness :
    ∃ r, replaceParentChild mXYZ "p" "y" "w" = Except.ok r ∧
      omGet r "p" = some { key := "p", text := "", type := "t", depth := 0,
                           children := ["x", "w", "z"] } ∧
      omGet r "w" = some { key := "w", text := "", type := "t", depth := 1,
                           parent := some "p" } ∧
      (∀ k, k ≠ "p" → k ≠ "w" → omGet r k = omGet mXYZ k) ∧
      (∀ onode, omGet mXYZ "y" = some onode →
        optSome (omGet r "y") (fun onode' =>
          onode'.parent = onode.parent ∧ onode'.prevSibling = onode.prevSibling ∧
          onode'.nextSibling = onode.nextSibling)) :=
  c8_replaceParentChild_spec mXYZ "p" "y" "w"
    { key := "p", text := "", type := "t", depth := 0, children := ["x", "y", "z"] }
    { key := "w", text := "", type := "t", depth := 1 }
    (by decide) (by decide) (by decide) (by decide) (by decide)

/-! ### Claim C9 -/

/-- C9, counterexample: the claim's universally quantified wording also
covers `parentKey = newChildKey`.  With `mPX` and the absent old child `q`,
`replaceParentChild(mPX, p, q, p)` indeed does not fail, but the last child
slot is not replaced: the staged new-child write overwrites the staged
parent write under the same key, so `p`'s children stay `[x]` instead of
becoming `[p]`. -/
theorem c9_alias_last_slot_not_replaced :
    replaceParentChild mPX "p" "q" "p" =
      Except.ok [("p", { key := "p", text := "", type := "t", depth := 0,
                         parent := some "p", children := ["x"] }),
                 ("x", { key := "x", text := "", type := "t", depth := 1,
                         parent := some "p" })] ∧
    optSome
      (omGet [("p", { key := "p", text := "", type := "t", depth := 0,
                      parent := some "p", children := ["x"] }),
              ("x", { key := "x", text := "", type := "t", depth := 1,
                      parent := some "p" })] "p")
      (fun n => n.children ≠ ["p"]) := by decide

/-- C9, amended: for every collection in which `parentKey` and `newChildKey`
resolve, `parentKey ≠ newChildKey`, the parent's children are non-empty and
`oldChildKey` does not occur in them, `replaceParentChild` does not fail:
`indexOf` yields `-1`, `Immutable.List.set(-1, ·)` counts from the end, and
the parent's last child slot is silently overwritten by `newChildKey`; the
missing old child is never detected. -/
theorem c9_replaceParentChild_missing_spec (m : BlockMap)
    (parentKey oldChildKey newChildKey : Key) (parent newChild : ContentBlockNode)
    (hp : omGet m parentKey = some parent) (hn : omGet m newChildKey = some newChild)
    (hold : oldChildKey ∉ parent.children) (hne : parent.children ≠ [])
    (hd1 : parentKey ≠ newChildKey) :
    ∃ r, replaceParentChild m parentKey oldChildKey newChildKey = Except.ok r ∧
      omGet r parentKey =
        some { parent with children := parent.children.dropLast ++ [newChildKey] } ∧
      omGet r newChildKey = some { newChild with parent := some parentKey } := by
  have hr : replaceParentChild m parentKey oldChildKey newChildKey = Except.ok (applyAssigns m
      [(parentKey,
        { parent with children := parent.children.dropLast ++ [newChildKey] }),
       (newChildKey, { newChild with parent := some parentKey })]) := by
    rw [replaceParentChild.eq_def, hp, hn]
    simp only [jsIndexOf_of_not_mem hold, listSet_neg_one _ hne]
  refine ⟨_, hr, ?_, ?_⟩
  · simp only [applyAssigns_cons, applyAssigns_nil]
    rw [omGet_omSet_ne _ _ hd1, omGet_omSet_self]
  · simp only [applyAssigns_cons, applyAssigns_nil]
    rw [omGet_omSet_self]

/-- Witness for the amended C9: replacing the absent child `q` by `w` under
`p` in `mXYZ` silently overwrites the last slot: children become
`[x, y, w]` and no error is raised. -/
theorem c9_replaceParentChild_missing_spec_witness :
    ∃ r, replaceParentChild mXYZ "p" "q" "w" = Except.ok r ∧
      omGet r "p" = some { key := "p", text := "", type := "t", depth := 0,
                           children := ["x", "y", "w"] } ∧
      omGet r "w" = some { key := "w", text := "", type := "t", depth := 1,
                           parent := some "p" } :=
  c9_replaceParentChild_missing_spec mXYZ "p" "q" "w"
    { key := "p", text := "", type := "t", depth := 0, children := ["x", "y", "z"] }
    { key := "w", text := "", type := "t", depth := 1 }
    (by decide) (by decide) (by decide) (by decide) (by decide)


/-! ### Claim C7 -/

/-- C7: `updateParentChild` fails with a `PreconditionError` if and only if
`parentKey` or `childKey` does not resolve to an existing node, or
`position < 0`, or `position > count(parent.children)`.  (In all other
cases the call returns either a new collection or — when an adjacent child
reference dangles — a TypeError, never a PreconditionError; failures return
no collection at all, and the input collection is untouched because the
operation is pure.) -/
theorem c7_updateParentChild_precondition_iff (m : BlockMap) (parentKey childKey : Key)
    (position : Int) :
    (∃ msg, updateParentChild m parentKey childKey position =
      Except.error (JSError.precondition msg)) ↔
    (omGet m parentKey = none ∨ omGet m childKey = none ∨ position < 0 ∨
      optAll (omGet m parentKey)
        (fun parent => (parent.children.length : Int) < position)) := by
  rcases hP : omGet m parentKey with _ | parent
  · constructor
    · intro _
      exact Or.inl rfl
    · intro _
      refine ⟨"parent & child should exist in the block map", ?_⟩
      rw [updateParentChild.eq_def, hP]
  · rcases hC : omGet m childKey with _ | child
    · constructor
      · intro _
        exact Or.inr (Or.inl rfl)
      · intro _
        refine ⟨"parent & child should exist in the block map", ?_⟩
        rw [updateParentChild.eq_def, hP, hC]
    · by_cases hb : position < 0 ∨ ((parent.children.length : Int) < position)
      · constructor
        · intro _
          rcases hb with hb | hb
          · exact Or.inr (Or.inr (Or.inl hb))
          · exact Or.inr (Or.inr (Or.inr hb))
        · intro _
          refine ⟨"position is not valid for the number of children", ?_⟩
          rw [updateParentChild.eq_def, hP, hC]
          simp only [hb, if_true]
      · constructor
        · rintro ⟨msg, hmsg⟩
          exfalso
          rw [updateParentChild.eq_def, hP, hC] at hmsg
          simp only [hb, if_false] at hmsg
          split at hmsg
          · rename_i e heq
            have he : e = JSError.precondition msg := Except.error.inj hmsg
            subst he
            split at heq
            · split at heq
              · split at heq
                · cases heq
                · simp at heq
              · cases heq
            · cases heq
          · rename_i a heq
            split at hmsg
            · rename_i e2 heq2
              have he : e2 = JSError.precondition msg := Except.error.inj hmsg
              subst he
              split at heq2
              · split at heq2
                · split at heq2
                  · cases heq2
                  · simp at heq2
                · cases heq2
              · cases heq2
            · cases hmsg
        · intro hR
          exfalso
          rcases hR with h | h | h | h
          · cases h
          · cases h
          · exact hb (Or.inl h)
          · exact hb (Or.inr h)


/-! ### Claim C3 -/

/-- C3: on the collection `{A, B}` where `A` and `B` have empty children,
`A.nextSibling = B`, `B.prevSibling = A` and neither has a parent,
`createNewParent(collection, "A")` (with any fresh generated key) returns
exactly the collection `[N, A, B]` in which the new node `N` has
`children = [A]`, `depth`/`type` equal to `A`'s, `N.nextSibling = B`,
`B.prevSibling = N`, `A.parent = N`, and `A`'s own sibling references are
cleared. -/
theorem c3_createNewParent_scenario (newKey : Key)
    (hA : newKey ≠ "A") (hB : newKey ≠ "B") :
    createNewParent mWrap "A" newKey =
      Except.ok
        [(newKey, { key := newKey, text := "", type := "t", depth := 2,
                    nextSibling := some "B", children := ["A"] }),
         ("A", { key := "A", text := "x", type := "t", depth := 2, parent := some newKey }),
         ("B", { key := "B", text := "y", type := "u", depth := 5,
                 prevSibling := some newKey })] := by
  have hA' : ("A" : Key) ≠ newKey := Ne.symm hA
  have hB' : ("B" : Key) ≠ newKey := Ne.symm hB
  rw [createNewParent.eq_def]
  simp [mWrap, omGet, omSet, applyAssigns, takeUntilKey, skipUntilKey,
    updateParentChild, updateSibling, hA, hB, hA', hB']

/-- Witness for C3 with the concrete fresh key `n`. -/
theorem c3_createNewParent_scenario_witness :
    ("n" : Key) ≠ "A" ∧ ("n" : Key) ≠ "B" ∧
    createNewParent mWrap "A" "n" =
      Except.ok
        [("n", { key := "n", text := "", type := "t", depth := 2,
                 nextSibling := some "B", children := ["A"] }),
         ("A", { key := "A", text := "x", type := "t", depth := 2, parent := some "n" }),
         ("B", { key := "B", text := "y", type := "u", depth := 5,
                 prevSibling := some "n" })] :=
  ⟨by decide, by decide, c3_createNewParent_scenario "n" (by decide) (by decide)⟩

/-! ### Additional toolkit lemmas for the composite-operation proof -/

theorem omSet_mid (B C : BlockMap) (k : Key) (n v : ContentBlockNode)
    (hB : k ∉ B.map Prod.fst) :
    omSet (B ++ (k, n) :: C) k v = B ++ (k, v) :: C := by
  rw [omSet_append_right _ _ hB]
  simp [omSet]

theorem mem_omSet (m : BlockMap) (k : Key) (v : ContentBlockNode) :
    ∀ q ∈ omSet m k v, q ∈ m ∨ q = (k, v) := by
  induction m with
  | nil =>
    intro q hq
    simp [omSet] at hq
    exact Or.inr hq
  | cons p m ih =>
    intro q hq
    by_cases hp : p.1 = k
    · simp only [omSet, hp, if_true] at hq
      rcases List.mem_cons.mp hq with h | h
      · exact Or.inr h
      · exact Or.inl (List.mem_cons_of_mem p h)
    · simp only [omSet, hp, if_false] at hq
      rcases List.mem_cons.mp hq with h | h
      · exact Or.inl (h ▸ List.mem_cons_self p m)
      · rcases ih q h with h1 | h1
        · exact Or.inl (List.mem_cons_of_mem p h1)
        · exact Or.inr h1

theorem omSet_cons_ne (p : Key × ContentBlockNode) (m : BlockMap) (k : Key)
    (v : ContentBlockNode) (h : p.1 ≠ k) : omSet (p :: m) k v = p :: omSet m k v := by
  simp [omSet, h]

theorem omSet_cons_self (k : Key) (n v : ContentBlockNode) (m : BlockMap) :
    omSet ((k, n) :: m) k v = (k, v) :: m := by
  simp [omSet]

theorem updateParentChild_zero_nil (m : BlockMap) (S K : Key) (nS nK : ContentBlockNode)
    (hgS : omGet m S = some nS) (hgK : omGet m K = some nK) (h0 : nS.children = []) :
    updateParentChild m S K 0 =
      Except.ok (applyAssigns m
        [(S, { nS with children := [K] }),
         (K, { nK with parent := some S, prevSibling := none, nextSibling := none })]) := by
  have hb : ¬((0 : Int) < 0 ∨ ((nS.children.length : Int) < (0 : Int))) := by omega
  rw [updateParentChild.eq_def, hgS, hgK]
  simp only [hb, if_false, Int.toNat_zero, Nat.lt_irrefl, h0, List.length_nil,
    List.take_zero, List.drop_zero, List.nil_append, List.singleton_append,
    List.append_nil]
  norm_num

theorem updateParentChild_zero_cons (m : BlockMap) (S K : Key) (nS nK : ContentBlockNode)
    (c0 : Key) (cs' : List Key) (nc0 : ContentBlockNode)
    (hgS : omGet m S = some nS) (hgK : omGet m K = some nK)
    (h0 : nS.children = c0 :: cs') (hg0 : omGet m c0 = some nc0) :
    updateParentChild m S K 0 =
      Except.ok (applyAssigns m
        [(S, { nS with children := K :: c0 :: cs' }),
         (c0, { nc0 with prevSibling := some K }),
         (K, { nK with parent := some S, prevSibling := none, nextSibling := some c0 })]) := by
  have hb : ¬((0 : Int) < 0 ∨ ((nS.children.length : Int) < (0 : Int))) := by omega
  rw [updateParentChild.eq_def, hgS, hgK]
  simp only [hb, if_false, Int.toNat_zero, Nat.lt_irrefl, h0, List.length_cons,
    Nat.succ_pos, if_true, List.getElem?_cons_zero, hg0, List.take_zero,
    List.drop_zero, List.nil_append, List.singleton_append, List.append_nil,
    List.cons_append, Nat.zero_lt_succ]
  norm_num
  intro hx
  exact absurd hx (by omega)

theorem splice_next_facts (B1 M A1 : BlockMap) (K S : Key)
    (vK1 vS2 : ContentBlockNode)
    (hB1keyed : ∀ q ∈ B1, q.2.key = q.1) (hMkeyed : ∀ q ∈ M, q.2.key = q.1)
    (hKB1 : K ∉ B1.map Prod.fst) (hSB1 : S ∉ B1.map Prod.fst)
    (hSM : S ∉ M.map Prod.fst) (hKS : K ≠ S)
    (hkeyK : vK1.key = K) (hkeyS : vS2.key = S)
    (hA1fresh : ∀ a ∈ A1.map Prod.fst, a ∉ B1.map Prod.fst ∧ a ≠ K ∧ a ≠ S)
    (hnA1 : (A1.map Prod.fst).Nodup) :
    takeUntilKey (B1 ++ (K, vK1) :: (M ++ (S, vS2) :: A1)) K = B1 ∧
    (skipUntilKey (B1 ++ (K, vK1) :: (M ++ (S, vS2) :: A1)) S).drop 1 = A1 ∧
    omGet (B1 ++ (K, vK1) :: (M ++ (S, vS2) :: A1)) S = some vS2 ∧
    omGet (B1 ++ (K, vK1) :: (M ++ (S, vS2) :: A1)) K = some vK1 ∧
    applyAssigns (applyAssigns B1 [(S, vS2), (K, vK1)]) A1 =
      B1 ++ (S, vS2) :: (K, vK1) :: A1 := by
  have hBne : ∀ p ∈ B1, p.2.key ≠ K := by
    intro p hp he
    exact hKB1 (he ▸ hB1keyed p hp ▸ List.mem_map.mpr ⟨p, hp, rfl⟩)
  refine ⟨?_, ?_, ?_, ?_, ?_⟩
  · exact takeUntilKey_eq _ _ _ _ hBne hkeyK
  · have hshape : B1 ++ (K, vK1) :: (M ++ (S, vS2) :: A1) =
        (B1 ++ (K, vK1) :: M) ++ (S, vS2) :: A1 := by simp
    rw [hshape]
    rw [skipUntilKey_eq _ _ _ _ ?_ hkeyS]
    · rfl
    · intro p hp he
      rcases List.mem_append.mp hp with h | h
      · exact hSB1 (he ▸ hB1keyed p h ▸ List.mem_map.mpr ⟨p, h, rfl⟩)
      · rcases List.mem_cons.mp h with h1 | h1
        · rw [h1] at he
          exact hKS (hkeyK ▸ he)
        · exact hSM (he ▸ hMkeyed p h1 ▸ List.mem_map.mpr ⟨p, h1, rfl⟩)
  · rw [omGet_append_of_not_mem _ _ _ hSB1]
    simp only [omGet, if_neg hKS]
    rw [omGet_append_of_not_mem _ _ _ hSM]
    simp [omGet]
  · rw [omGet_append_of_not_mem _ _ _ hKB1]
    simp [omGet]
  · have h1 : applyAssigns B1 [(S, vS2), (K, vK1)] = B1 ++ [(S, vS2), (K, vK1)] := by
      apply applyAssigns_fresh
      · intro p hp
        rcases List.mem_cons.mp hp with h | h
        · rw [h]
          exact hSB1
        · rcases List.mem_cons.mp h with h1 | h1
          · rw [h1]
            exact hKB1
          · simp at h1
      · simp [hKS.symm]
    rw [h1]
    rw [applyAssigns_fresh]
    · simp
    · intro p hp
      rcases hA1fresh p.1 (List.mem_map.mpr ⟨p, hp, rfl⟩) with ⟨h1, h2, h3⟩
      simp only [List.map_append, List.map_cons, List.map_nil]
      intro hmem
      rcases List.mem_append.mp hmem with h | h
      · exact h1 h
      · rcases List.mem_cons.mp h with h4 | h4
        · exact h3 h4
        · rcases List.mem_cons.mp h4 with h5 | h5
          · exact h2 h5
          · simp at h5
    · exact hnA1

theorem mem_of_omGet {m : BlockMap} {k : Key} {v : ContentBlockNode}
    (h : omGet m k = some v) : (k, v) ∈ m := by
  induction m with
  | nil => simp [omGet] at h
  | cons p m ih =>
    by_cases hp : p.1 = k
    · simp only [omGet, hp, if_true, Option.some.injEq] at h
      have hpv : p = (k, v) := by
        rcases p with ⟨p1, p2⟩
        simp only at hp h
        rw [hp, h]
      exact hpv ▸ List.mem_cons_self p m
    · simp only [omGet, hp, if_false] at h
      exact List.mem_cons_of_mem p (ih h)

/-! ### Claim C4 -/

set_option maxHeartbeats 1000000 in
/-- C4: adopting `K` under its next sibling `S` (case `next`, `S` with empty
text).  The input collection is decomposed as `B ++ K :: M ++ S :: A`: `B`
the entries before `K`, `M` the entries strictly between `K` and `S` (in a
valid tree, `K`'s descendants), `A` the entries after `S`.  The hypotheses
spell out the consequences of tree validity the proof uses: keys are
unique, each node's `key` field matches its map key, `K`'s previous
sibling (if any) and parent (if any) lie in `B`, `S`'s first child (if
any) lies in `A`, the parent is distinct from the previous sibling, and
the parent's children contain `K`.  Conclusion: the returned collection
places `S` immediately before `K` in iteration order, `S` is `K`'s parent
with `K` as `S`'s first child (`K`'s own sibling fields rewired), and `K`
is removed from its former parent's children list while that parent's own
sibling links (its other fields) are untouched. -/
theorem c4_adoptByNextSibling_spec (B M A : BlockMap) (K S : Key)
    (nK nS : ContentBlockNode)
    (hkeys : ((B ++ (K, nK) :: (M ++ (S, nS) :: A)).map Prod.fst).Nodup)
    (hkeyed : ∀ p ∈ B ++ (K, nK) :: (M ++ (S, nS) :: A), p.2.key = p.1)
    (hnextS : nK.nextSibling = some S)
    (htext : nS.text = "")
    (hPmem : optAll nK.prevSibling (fun q => q ∈ B.map Prod.fst))
    (hCmem : optAll nS.children.head? (fun c => c ∈ A.map Prod.fst))
    (hF : optAll nK.parent (fun f => f ∈ B.map Prod.fst ∧
      optAll nK.prevSibling (fun q => f ≠ q) ∧
      (∀ q ∈ B, q.1 = f → K ∈ q.2.children))) :
    ∃ r, updateAsSiblingsChild (B ++ (K, nK) :: (M ++ (S, nS) :: A)) K
        SiblingInsertPosition.next = Except.ok r ∧
      r.map Prod.fst = B.map Prod.fst ++ S :: K :: A.map Prod.fst ∧
      omGet r K =
        some { nK with
               parent := some S,
               prevSibling := none,
               nextSibling := nS.children.head? } ∧
      omGet r S =
        some { nS with
               children := K :: nS.children,
               prevSibling := nK.prevSibling } ∧
      optAll nK.parent (fun f => ∀ q ∈ B, q.1 = f →
        omGet r f = some { q.2 with children := q.2.children.erase K }) := by
  -- disjointness bookkeeping
  have hkeys' : (B.map Prod.fst ++
      K :: (M.map Prod.fst ++ S :: A.map Prod.fst)).Nodup := by
    simpa using hkeys
  rw [List.nodup_append] at hkeys'
  obtain ⟨hnB, hnRest, hdisjB⟩ := hkeys'
  rw [List.nodup_cons] at hnRest
  obtain ⟨hKnotin, hnRest2⟩ := hnRest
  rw [List.nodup_append] at hnRest2
  obtain ⟨hnM, hnSA, hdisjM⟩ := hnRest2
  rw [List.nodup_cons] at hnSA
  obtain ⟨hSA, hnA⟩ := hnSA
  have hKB : K ∉ B.map Prod.fst := fun h => hdisjB h (List.mem_cons_self _ _)
  have hKS : K ≠ S := by
    intro he
    exact hKnotin (by simp [he])
  have hKM : K ∉ M.map Prod.fst := fun h => hKnotin (by simp [h])
  have hKA : K ∉ A.map Prod.fst := fun h => hKnotin (by simp [h])
  have hSB : S ∉ B.map Prod.fst := fun h => hdisjB h (by simp)
  have hSM : S ∉ M.map Prod.fst := fun h => hdisjM h (List.mem_cons_self _ _)
  have hAB : ∀ a ∈ A.map Prod.fst, a ∉ B.map Prod.fst := by
    intro a ha hb
    exact hdisjB hb (by simp [ha])
  have hAM : ∀ a ∈ A.map Prod.fst, a ∉ M.map Prod.fst := by
    intro a ha hm
    exact hdisjM hm (by simp [ha])
  have hAK : ∀ a ∈ A.map Prod.fst, a ≠ K := fun a ha he => hKA (he ▸ ha)
  have hAS : ∀ a ∈ A.map Prod.fst, a ≠ S := fun a ha he => hSA (he ▸ ha)
  have hBK : ∀ b ∈ B.map Prod.fst, b ≠ K := fun b hb he => hKB (he ▸ hb)
  have hBS : ∀ b ∈ B.map Prod.fst, b ≠ S := fun b hb he => hSB (he ▸ hb)
  -- node key fields
  have hkeyK : nK.key = K := hkeyed (K, nK) (by simp)
  have hkeyS : nS.key = S := hkeyed (S, nS) (by simp)
  -- lookups in the input map
  have hgetK : omGet (B ++ (K, nK) :: (M ++ (S, nS) :: A)) K = some nK := by
    rw [omGet_append_of_not_mem _ _ _ hKB]
    simp [omGet]
  have hgetS : omGet (B ++ (K, nK) :: (M ++ (S, nS) :: A)) S = some nS := by
    rw [omGet_append_of_not_mem _ _ _ hSB]
    simp only [omGet, hKS, if_false]
    rw [omGet_append_of_not_mem _ _ _ hSM]
    simp [omGet]

  -- Step 1: updateParentChild links K as the first child of S
  have hstep1 : ∃ A1, updateParentChild (B ++ (K, nK) :: (M ++ (S, nS) :: A)) S K 0 =
      Except.ok (B ++
        (K, { nK with
              parent := some S,
              prevSibling := none,
              nextSibling := nS.children.head? }) ::
        (M ++ (S, { nS with children := K :: nS.children }) :: A1)) ∧
      A1.map Prod.fst = A.map Prod.fst ∧ (∀ q ∈ A1, q.2.key = q.1) := by
    rcases hcs : nS.children with _ | ⟨c0, cs'⟩
    · refine ⟨A, ?_, rfl, fun q hq => hkeyed q (by simp [hq])⟩
      rw [updateParentChild_zero_nil _ _ _ _ _ hgetS hgetK hcs]
      simp only [applyAssigns_cons, applyAssigns_nil]
      rw [omSet_append_right _ _ hSB, omSet_cons_ne _ _ _ _ hKS,
        omSet_append_right _ _ hSM, omSet_cons_self,
        omSet_append_right _ _ hKB, omSet_cons_self]
      simp [hcs]
    · have hc0mem : c0 ∈ A.map Prod.fst := by
        have h := hCmem
        rw [hcs] at h
        simpa [optAll] using h
      obtain ⟨q, hqA, hq1⟩ := List.mem_map.mp hc0mem
      have hc0A : (c0, q.2) ∈ A := by
        rw [← hq1]
        exact hqA
      have hgc0A : omGet A c0 = some q.2 := omGet_mem_nodup hc0A hnA
      have hgc0 : omGet (B ++ (K, nK) :: (M ++ (S, nS) :: A)) c0 = some q.2 := by
        rw [omGet_append_of_not_mem _ _ _ (hAB c0 hc0mem)]
        simp only [omGet, if_neg (Ne.symm (hAK c0 hc0mem))]
        rw [omGet_append_of_not_mem _ _ _ (fun hm => hAM c0 hc0mem hm)]
        simp only [omGet, if_neg (Ne.symm (hAS c0 hc0mem))]
        exact hgc0A
      refine ⟨omSet A c0 { q.2 with prevSibling := some K }, ?_,
        keys_omSet _ hc0mem, ?_⟩
      · rw [updateParentChild_zero_cons _ _ _ _ _ c0 cs' q.2 hgetS hgetK hcs hgc0]
        simp only [applyAssigns_cons, applyAssigns_nil]
        rw [omSet_append_right _ _ hSB, omSet_cons_ne _ _ _ _ hKS,
          omSet_append_right _ _ hSM, omSet_cons_self,
          omSet_append_right _ _ (hAB c0 hc0mem),
          omSet_cons_ne _ _ _ _ (Ne.symm (hAK c0 hc0mem)),
          omSet_append_right _ _ (fun hm => hAM c0 hc0mem hm),
          omSet_cons_ne _ _ _ _ (Ne.symm (hAS c0 hc0mem)),
          omSet_append_right _ _ hKB, omSet_cons_self]
        simp [hcs]
      · intro p hp
        rcases mem_omSet _ _ _ p hp with h | h
        · exact hkeyed p (by simp [h])
        · rw [h]
          exact hkeyed (c0, q.2) (by simp [hc0A])

  obtain ⟨A1, hstep1eq, hA1keys, hA1keyed⟩ := hstep1
  have hBkeyed : ∀ q ∈ B, q.2.key = q.1 := fun q hq => hkeyed q (by simp [hq])
  have hMkeyed : ∀ q ∈ M, q.2.key = q.1 := fun q hq => hkeyed q (by simp [hq])
  have hA1fresh : ∀ a ∈ A1.map Prod.fst, a ∉ B.map Prod.fst ∧ a ≠ K ∧ a ≠ S := by
    intro a ha
    rw [hA1keys] at ha
    exact ⟨hAB a ha, hAK a ha, hAS a ha⟩
  have hnA1 : (A1.map Prod.fst).Nodup := by
    rw [hA1keys]
    exact hnA
  have htext' : ¬(nS.text ≠ "") := by
    rw [htext]
    exact fun h => h rfl
  set vK1 : ContentBlockNode :=
    { nK with
      parent := some S,
      prevSibling := none,
      nextSibling := nS.children.head? } with hvK1
  set vS1 : ContentBlockNode := { nS with children := K :: nS.children } with hvS1
  have hkeyK1 : vK1.key = K := hkeyK
  have hkeyS1 : vS1.key = S := hkeyS
  obtain ⟨htake1, hskip1, hgetS1, hgetK1, happ1⟩ :=
    splice_next_facts B M A1 K S vK1 vS1 hBkeyed hMkeyed hKB hSB hSM hKS hkeyK1 hkeyS1
      hA1fresh hnA1
  have hlook : ∀ (X : BlockMap) (v : ContentBlockNode),
      X.map Prod.fst = B.map Prod.fst →
      ((X ++ (S, v) :: (K, vK1) :: A1).map Prod.fst =
        B.map Prod.fst ++ S :: K :: A.map Prod.fst) ∧
      omGet (X ++ (S, v) :: (K, vK1) :: A1) K = some vK1 ∧
      omGet (X ++ (S, v) :: (K, vK1) :: A1) S = some v := by
    intro X v hX
    refine ⟨?_, ?_, ?_⟩
    · simp [hX, hA1keys]
    · rw [omGet_append_of_not_mem _ _ _ (by rw [hX]; exact hKB)]
      simp [omGet, Ne.symm hKS]
    · rw [omGet_append_of_not_mem _ _ _ (by rw [hX]; exact hSB)]
      simp [omGet]
  have hlookRF : ∀ (X : BlockMap) (v vF : ContentBlockNode) (F : Key),
      omGet X F = some vF →
      omGet (X ++ (S, v) :: (K, vK1) :: A1) F = some vF := by
    intro X v vF F hXF
    rw [omGet_append, hXF]
  rcases hps : nK.prevSibling with _ | P0
  · -- K had no previous sibling: the code clears S.prevSibling
    obtain ⟨htake2, hskip2, hgetS2, hgetK2, happ2⟩ :=
      splice_next_facts B M A1 K S vK1 { vS1 with prevSibling := none }
        hBkeyed hMkeyed hKB hSB hSM hKS hkeyK1 hkeyS1 hA1fresh hnA1
    have homset2 : omSet (B ++ (K, vK1) :: (M ++ (S, vS1) :: A1)) S
        { vS1 with prevSibling := none } =
        B ++ (K, vK1) :: (M ++ (S, { vS1 with prevSibling := none }) :: A1) := by
      rw [omSet_append_right _ _ hSB, omSet_cons_ne _ _ _ _ hKS,
        omSet_append_right _ _ hSM, omSet_cons_self]
    rcases hpar : nK.parent with _ | F
    · refine ⟨B ++ (S, { vS1 with prevSibling := none }) :: (K, vK1) :: A1, ?_, ?_, ?_, ?_, ?_⟩
      · rw [updateAsSiblingsChild.eq_def, hgetK]
        simp only [hnextS, hgetS, htext', if_false, hstep1eq, hps, hgetS1, homset2,
          htake2, hskip2, hgetS2, hgetK2, happ2, hpar]
      · exact (hlook B _ rfl).1
      · exact (hlook B _ rfl).2.1
      · exact (hlook B _ rfl).2.2
      · exact trivial
    · rw [hpar] at hF
      simp only [optAll] at hF
      obtain ⟨hFB, hFP0, hFch⟩ := hF
      obtain ⟨nF, hBF⟩ := exists_omGet_of_mem_keys hFB
      have hKch : K ∈ nF.children := hFch (F, nF) (mem_of_omGet hBF) rfl
      have herase : listDelete nF.children (jsIndexOf nF.children K) =
          nF.children.erase K := listDelete_jsIndexOf_eq_erase hKch
      have hgetr0F : omGet (B ++ (S, { vS1 with prevSibling := none }) ::
          (K, vK1) :: A1) F = some nF := hlookRF B _ nF F hBF
      have homsetF : omSet (B ++ (S, { vS1 with prevSibling := none }) ::
          (K, vK1) :: A1) F { nF with children := nF.children.erase K } =
          omSet B F { nF with children := nF.children.erase K } ++
            (S, { vS1 with prevSibling := none }) :: (K, vK1) :: A1 :=
        omSet_append_left _ _ hFB
      have hXkeys : (omSet B F { nF with children := nF.children.erase K }).map Prod.fst =
          B.map Prod.fst := keys_omSet _ hFB
      refine ⟨omSet B F { nF with children := nF.children.erase K } ++
        (S, { vS1 with prevSibling := none }) :: (K, vK1) :: A1, ?_, ?_, ?_, ?_, ?_⟩
      · rw [updateAsSiblingsChild.eq_def, hgetK]
        simp only [hnextS, hgetS, htext', if_false, hstep1eq, hps, hgetS1, homset2,
          htake2, hskip2, hgetS2, hgetK2, happ2, hpar, hgetr0F, herase, homsetF]
      · exact (hlook _ _ hXkeys).1
      · exact (hlook _ _ hXkeys).2.1
      · exact (hlook _ _ hXkeys).2.2
      · intro q hq hq1
        have h1 : omGet B q.1 = some q.2 := omGet_mem_nodup hq hnB
        rw [hq1] at h1
        have hq2 : q.2 = nF := Option.some.inj (h1.symm.trans hBF)
        rw [hq2]
        exact hlookRF _ _ _ F (omGet_omSet_self B F _)
  · -- K had a previous sibling P0: the code links P0 to S
    rw [hps] at hPmem
    simp only [optAll] at hPmem
    obtain ⟨nP0, hBP0⟩ := exists_omGet_of_mem_keys hPmem
    have hSB1 : S ∉ (omSet B P0 { nP0 with nextSibling := some S }).map Prod.fst := by
      rw [keys_omSet _ hPmem]
      exact hSB
    have hKB1 : K ∉ (omSet B P0 { nP0 with nextSibling := some S }).map Prod.fst := by
      rw [keys_omSet _ hPmem]
      exact hKB
    have hB1keys : (omSet B P0 { nP0 with nextSibling := some S }).map Prod.fst =
        B.map Prod.fst := keys_omSet _ hPmem
    have hB1keyed : ∀ q ∈ omSet B P0 { nP0 with nextSibling := some S },
        q.2.key = q.1 := by
      intro q hq
      rcases mem_omSet _ _ _ q hq with h | h
      · exact hBkeyed q h
      · rw [h]
        exact hBkeyed (P0, nP0) (mem_of_omGet hBP0)
    have hA1fresh1 : ∀ a ∈ A1.map Prod.fst,
        a ∉ (omSet B P0 { nP0 with nextSibling := some S }).map Prod.fst ∧
        a ≠ K ∧ a ≠ S := by
      intro a ha
      obtain ⟨h1, h2, h3⟩ := hA1fresh a ha
      refine ⟨?_, h2, h3⟩
      rw [hB1keys]
      exact h1
    obtain ⟨htake2, hskip2, hgetS2, hgetK2, happ2⟩ :=
      splice_next_facts (omSet B P0 { nP0 with nextSibling := some S }) M A1 K S vK1
        { vS1 with prevSibling := some P0 }
        hB1keyed hMkeyed hKB1 hSB1 hSM hKS hkeyK1 hkeyS1 hA1fresh1 hnA1
    have hgetP0 : omGet (B ++ (K, vK1) :: (M ++ (S, vS1) :: A1)) P0 = some nP0 := by
      rw [omGet_append, hBP0]
    have hsibeq : updateSibling (B ++ (K, vK1) :: (M ++ (S, vS1) :: A1)) P0 S =
        Except.ok (omSet B P0 { nP0 with nextSibling := some S } ++
          (K, vK1) :: (M ++ (S, { vS1 with prevSibling := some P0 }) :: A1)) := by
      rw [updateSibling.eq_def, hgetP0, hgetS1]
      simp only [applyAssigns_cons, applyAssigns_nil]
      rw [omSet_append_left _ _ hPmem]
      rw [omSet_append_right _ _ hSB1, omSet_cons_ne _ _ _ _ hKS,
        omSet_append_right _ _ hSM, omSet_cons_self]
    rcases hpar : nK.parent with _ | F
    · refine ⟨omSet B P0 { nP0 with nextSibling := some S } ++
        (S, { vS1 with prevSibling := some P0 }) :: (K, vK1) :: A1, ?_, ?_, ?_, ?_, ?_⟩
      · rw [updateAsSiblingsChild.eq_def, hgetK]
        simp only [hnextS, hgetS, htext', if_false, hstep1eq, hps, hsibeq,
          htake2, hskip2, hgetS2, hgetK2, happ2, hpar]
      · exact (hlook _ _ hB1keys).1
      · exact (hlook _ _ hB1keys).2.1
      · exact (hlook _ _ hB1keys).2.2
      · exact trivial
    · rw [hpar, hps] at hF
      simp only [optAll] at hF
      obtain ⟨hFB, hFP0, hFch⟩ := hF
      obtain ⟨nF, hBF⟩ := exists_omGet_of_mem_keys hFB
      have hKch : K ∈ nF.children := hFch (F, nF) (mem_of_omGet hBF) rfl
      have herase : listDelete nF.children (jsIndexOf nF.children K) =
          nF.children.erase K := listDelete_jsIndexOf_eq_erase hKch
      have hB1F : omGet (omSet B P0 { nP0 with nextSibling := some S }) F = some nF := by
        rw [omGet_omSet_ne _ _ hFP0]
        exact hBF
      have hFB1 : F ∈ (omSet B P0 { nP0 with nextSibling := some S }).map Prod.fst := by
        rw [hB1keys]
        exact hFB
      have hgetr0F : omGet (omSet B P0 { nP0 with nextSibling := some S } ++
          (S, { vS1 with prevSibling := some P0 }) :: (K, vK1) :: A1) F = some nF :=
        hlookRF _ _ nF F hB1F
      have homsetF : omSet (omSet B P0 { nP0 with nextSibling := some S } ++
          (S, { vS1 with prevSibling := some P0 }) :: (K, vK1) :: A1) F
          { nF with children := nF.children.erase K } =
          omSet (omSet B P0 { nP0 with nextSibling := some S }) F
            { nF with children := nF.children.erase K } ++
            (S, { vS1 with prevSibling := some P0 }) :: (K, vK1) :: A1 :=
        omSet_append_left _ _ hFB1
      have hXkeys : (omSet (omSet B P0 { nP0 with nextSibling := some S }) F
          { nF with children := nF.children.erase K }).map Prod.fst =
          B.map Prod.fst := by
        rw [keys_omSet _ hFB1]
        exact hB1keys
      refine ⟨omSet (omSet B P0 { nP0 with nextSibling := some S }) F
        { nF with children := nF.children.erase K } ++
        (S, { vS1 with prevSibling := some P0 }) :: (K, vK1) :: A1, ?_, ?_, ?_, ?_, ?_⟩
      · rw [updateAsSiblingsChild.eq_def, hgetK]
        simp only [hnextS, hgetS, htext', if_false, hstep1eq, hps, hsibeq,
          htake2, hskip2, hgetS2, hgetK2, happ2, hpar, hgetr0F, herase, homsetF]
      · exact (hlook _ _ hXkeys).1
      · exact (hlook _ _ hXkeys).2.1
      · exact (hlook _ _ hXkeys).2.2
      · intro q hq hq1
        have h1 : omGet B q.1 = some q.2 := omGet_mem_nodup hq hnB
        rw [hq1] at h1
        have hq2 : q.2 = nF := Option.some.inj (h1.symm.trans hBF)
        rw [hq2]
        exact hlookRF _ _ _ F (omGet_omSet_self _ F _)

/-- Witness for C4 on the four-block tree `mAdoptW`: container `f` with
children `[p, k, s]`; adopting `k` under its empty-text next sibling `s`
yields iteration order `[f, p, s, k]`, `k` parented under `s`, and `f`'s
children reduced to `[p, s]`. -/
theorem c4_adoptByNextSibling_spec_witness :
    ∃ r, updateAsSiblingsChild mAdoptW "k" SiblingInsertPosition.next = Except.ok r ∧
      r.map Prod.fst = ["f", "p", "s", "k"] ∧
      omGet r "k" = some { key := "k", text := "kk", type := "t", depth := 1,
                           parent := some "s" } ∧
      omGet r "s" = some { key := "s", text := "", type := "t", depth := 1,
                           parent := some "f", prevSibling := some "p",
                           children := ["k"] } ∧
      (∀ q ∈ mAdoptW.take 2, q.1 = "f" →
        omGet r "f" = some { q.2 with children := q.2.children.erase "k" }) :=
  c4_adoptByNextSibling_spec (mAdoptW.take 2) [] [] "k" "s"
    { key := "k", text := "kk", type := "t", depth := 1, parent := some "f",
      prevSibling := some "p", nextSibling := some "s" }
    { key := "s", text := "", type := "t", depth := 1, parent := some "f",
      prevSibling := some "k" }
    (by decide) (by decide) (by decide) (by decide) (by decide) (by decide) (by decide)
